import Mathlib

/-!
Verification of the SGK-RAG document segmentation pipeline.

Shallow embedding of the chapter/lesson segmentation and chunking code of
`src/sgk_rag/core/document_processor.py` and
`src/sgk_rag/core/document_processor_enhanced.py`.

Python strings are modelled as `List Char` (`Str`).  The Python regex
scans that *detect* marker candidates (eight `re.finditer` pattern passes)
are modelled as an input candidate list: every function below that the
claims are about starts from the list of candidates / matches exactly the
way the Python functions do after their `re.finditer` loops.  The
candidate-consuming logic (deduplication, sorting, chapter mapping,
span slicing, span filtering, chunk enrichment) is translated
line-by-line from the source.

Note on text encoding: `document_processor.py` is stored with its
Vietnamese string literals double-encoded ("mojibake"); e.g. the
lesson-reference literal on line 545 is the four characters
`B` `√` (U+221A) `†` (U+2020) `i`.  The embedding reproduces the
literals exactly as the bytes of the source file decode.
-/

namespace SgkRag

/-- Python `str`, modelled as a list of unicode characters. -/
abbrev Str := List Char

/-- Whitespace test used for Python's `\s` class and `str.strip`. -/
def isWs (c : Char) : Bool := c.isWhitespace

/-- ASCII decimal digit, Python's `\d` (restricted to ASCII digits). -/
def isDig (c : Char) : Bool := c.isDigit

/-- ASCII upper-case letter, the regex class `[A-Z]` without `IGNORECASE`. -/
def isUpperAscii (c : Char) : Bool := 'A' ≤ c ∧ c ≤ 'Z'

/-- Lower-casing for case-insensitive (`re.IGNORECASE`) comparisons:
ASCII plus the Latin-1 letters that occur in the source's literals. -/
def lowerChar (c : Char) : Char :=
  if 'A' ≤ c ∧ c ≤ 'Z' then Char.ofNat (c.toNat + 32)
  else if c = 'À' then 'à'
  else if c = 'Ä' then 'ä'
  else if c = 'Å' then 'å'
  else if c = 'Ç' then 'ç'
  else if c = 'É' then 'é'
  else if c = 'Ê' then 'ê'
  else if c = 'Ì' then 'ì'
  else if c = 'Í' then 'í'
  else if c = 'Î' then 'î'
  else if c = 'Ï' then 'ï'
  else if c = 'Ô' then 'ô'
  else if c = 'Ö' then 'ö'
  else if c = 'Ù' then 'ù'
  else if c = 'Ƒ' then 'ƒ'
  else c

/-- Case-insensitive character equality. -/
def ciEq (a b : Char) : Bool := lowerChar a = lowerChar b

/-- Case-insensitive prefix test (`re` literal run under `IGNORECASE`). -/
def ciIsPrefixOf : Str → Str → Bool
  | [], _ => true
  | _ :: _, [] => false
  | p :: ps, c :: cs => ciEq p c && ciIsPrefixOf ps cs

/-- Python `str.strip()`: drop leading and trailing whitespace. -/
def strip (s : Str) : Str :=
  ((s.dropWhile isWs).reverse.dropWhile isWs).reverse

/-- Python slice `text[a:b]` (for `0 ≤ a`, `0 ≤ b`). -/
def slice (text : Str) (a b : Nat) : Str := (text.drop a).take (b - a)

/-! ## Marker candidates (`_find_lesson_markers`, lines 272-424)

A candidate is one entry of the `markers` list built by the eight
`re.finditer` passes; `patternId` is the `'pattern'` tag the source
attaches to each entry. -/

/-- The `'pattern'` tags of the eight detection passes. -/
inductive PatternId where
  | uppercaseDot | uppercaseColon | mixedCaseDot | bulletPoint
  | standaloneUppercase | plainTextDot | tableOfContents | noPunctuation
  deriving DecidableEq, Repr

/-- One element of the `markers` list in `_find_lesson_markers`. -/
structure LessonMarker where
  position : Nat
  number : Nat
  title : Str
  fullMatch : Str
  patternId : PatternId
  deriving DecidableEq, Repr

/-- Fuelled scan for `extractVariant` (fuel bounds the scan length, the
string length always suffices). -/
def extractVariantAux : Nat → Str → Option Char
  | 0, _ => none
  | _, [] => none
  | fuel + 1, c :: rest =>
    if isDig c then
      match rest.dropWhile isDig with
      | d :: _ => if isUpperAscii d then some d else extractVariantAux fuel (rest.dropWhile isDig)
      | [] => none
    else extractVariantAux fuel rest

/-- `re.search(r'\d+([A-Z])', full).group(1)` (line 383-384): the first
capital letter immediately following a maximal digit run, if any. -/
def extractVariant (s : Str) : Option Char := extractVariantAux s.length s

/-- The composite dedup key `(marker['number'], variant)` (line 387). -/
abbrev MKey := Nat × Option Char

/-- Key of a candidate (lines 381-387). -/
def markerKey (m : LessonMarker) : MKey := (m.number, extractVariant m.fullMatch)

/-- `marker['pattern'] in ['mixed_case_dot', 'bullet_point']` (line 408). -/
def inMixedSet (p : PatternId) : Bool :=
  p = PatternId.mixedCaseDot ∨ p = PatternId.bulletPoint

/-- `existing['pattern'] in ['uppercase_dot', 'uppercase_colon', 'plain_text_dot']`
(line 409). -/
def inUpperSet (p : PatternId) : Bool :=
  p = PatternId.uppercaseDot ∨ p = PatternId.uppercaseColon ∨ p = PatternId.plainTextDot

/-- Whether a later candidate `mNew` replaces the stored candidate `mOld`
with the same key — the branch structure of lines 389-410. -/
def replaces (mNew mOld : LessonMarker) : Bool :=
  if mNew.patternId = PatternId.tableOfContents then false
  else if mOld.patternId = PatternId.tableOfContents then true
  else if mOld.title.length < mNew.title.length then true
  else if mNew.title.length = mOld.title.length
          ∧ inMixedSet mNew.patternId ∧ inUpperSet mOld.patternId then true
  else false

/-- Look up a key in the insertion-ordered association list that models the
`unique_markers` dict. -/
def lookupA : List (MKey × LessonMarker) → MKey → Option LessonMarker
  | [], _ => none
  | (k, v) :: rest, key => if k = key then some v else lookupA rest key

/-- Replace the value stored at an existing key (dict assignment to a
present key keeps its insertion position). -/
def setA : List (MKey × LessonMarker) → MKey → LessonMarker → List (MKey × LessonMarker)
  | [], key, v => [(key, v)]
  | (k, w) :: rest, key, v =>
    if k = key then (k, v) :: rest else (k, w) :: setA rest key v

/-- One iteration of the dedup loop body (lines 380-410). -/
def dedupStep (acc : List (MKey × LessonMarker)) (m : LessonMarker) :
    List (MKey × LessonMarker) :=
  let k := markerKey m
  match lookupA acc k with
  | none => acc ++ [(k, m)]
  | some old => if replaces m old then setA acc k m else acc

/-- The `unique_markers` dict after the dedup loop, as an insertion-ordered
association list. -/
def dedupMarkers (ms : List LessonMarker) : List (MKey × LessonMarker) :=
  ms.foldl dedupStep []

/-- Stable insertion into a position-sorted list (`sorted` is stable:
equal positions keep first-come order). -/
def insertByPos (m : LessonMarker) : List LessonMarker → List LessonMarker
  | [] => [m]
  | x :: xs => if m.position < x.position then m :: x :: xs else x :: insertByPos m xs

/-- `sorted(unique_markers.values(), key=lambda x: x['position'])` (line 412). -/
def sortByPos (l : List LessonMarker) : List LessonMarker :=
  l.foldl (fun acc m => insertByPos m acc) []

/-- `_find_lesson_markers` from the point where the candidate list exists:
dedup then sort by position (lines 378-412). -/
def findLessonMarkersFrom (candidates : List LessonMarker) : List LessonMarker :=
  sortByPos ((dedupMarkers candidates).map Prod.snd)

/-! ## Span filters of `_split_into_lessons` (lines 513-578) -/

/-- Attempt to match the pattern `B√†i\s+\d+` (line 545, `IGNORECASE`;
the literal is the mojibake spelling of "Bài" as stored in the source)
at the head of the string; returns the number of characters consumed. -/
def matchBaiLen (s : Str) : Option Nat :=
  match s with
  | c0 :: c1 :: c2 :: c3 :: rest =>
    if ciEq c0 'B' ∧ c1 = '√' ∧ c2 = '†' ∧ ciEq c3 'i' then
      let wsRun := rest.takeWhile isWs
      let afterWs := rest.dropWhile isWs
      let digRun := afterWs.takeWhile isDig
      if wsRun.length = 0 ∨ digRun.length = 0 then none
      else some (4 + wsRun.length + digRun.length)
    else none
  | _ => none

/-- Fuelled scan for `countBai` (each step consumes at least one
character, so the string length suffices as fuel). -/
def countBaiAux : Nat → Str → Nat
  | 0, _ => 0
  | _, [] => 0
  | fuel + 1, c :: rest =>
    match matchBaiLen (c :: rest) with
    | some k => 1 + countBaiAux fuel (rest.drop (k - 1))
    | none => countBaiAux fuel rest

/-- `len(re.findall(r'B√†i\s+\d+', content, re.IGNORECASE))` (line 545):
count of non-overlapping matches, scanning left to right. -/
def countBai (s : Str) : Nat := countBaiAux s.length s

/-- Literal `B√ÄI T·∫¨P` of line 539 (mojibake bytes of the source). -/
def exLit1 : Str := ['B', '√', 'Ä', 'I', ' ', 'T', '·', '∫', '¨', 'P']

/-- Literal `B√ÄI NGH·ªà` of line 539. -/
def exLit2 : Str := ['B', '√', 'Ä', 'I', ' ', 'N', 'G', 'H', '·', 'ª', 'à']

/-- `re.search(r"^B√ÄI T·∫¨P\s*$|^B√ÄI NGH·ªà\s*$", content, IGNORECASE|MULTILINE)`
(line 539).  With `MULTILINE`, each branch matches iff some line consists of
the literal followed only by whitespace. -/
def isExerciseSection (s : Str) : Bool :=
  (s.splitOn '\n').any fun line =>
    (ciIsPrefixOf exLit1 line ∧ (line.drop exLit1.length).all isWs)
    ∨ (ciIsPrefixOf exLit2 line ∧ (line.drop exLit2.length).all isWs)

/-- First lookahead alternative of line 552: the literal `CH·ª¶ ƒê·ªÄ`
(mojibake bytes of the source), case-insensitively. -/
def cleanLit1 : Str := ['C', 'H', '·', 'ª', '¶', ' ', 'ƒ', 'ê', '·', 'ª', 'Ä']

/-- The explicit (non-range) members of the character class of line 552,
exactly as the source bytes decode. -/
def cleanClassChars : Str :=
  ['√', 'Ä', 'Å', 'Ç', 'É', 'à', 'â', 'ä', 'å', 'ç', 'í', 'ì', 'î', 'ï',
   'ô', 'ö', 'ù', 'ƒ', 'ê', '·', 'ª', '®']

/-- Character class `[A-Z√Ä√Å√Ç√É√à√â√ä√å√ç√í√ì√î√ï√ô√ö√ùƒê·ª®]` of
line 552, under `IGNORECASE` (case-folded membership). -/
def cleanClassChar (c : Char) : Bool :=
  ('a' ≤ lowerChar c ∧ lowerChar c ≤ 'z')
  ∨ (cleanClassChars.map lowerChar).contains (lowerChar c)

/-- Second lookahead alternative of line 552: `B√ÄI\s+\d+\s+[...]`. -/
def cleanAlt2 (s : Str) : Bool :=
  match s with
  | c0 :: c1 :: c2 :: c3 :: rest =>
    if ciEq c0 'B' ∧ c1 = '√' ∧ c2 = 'Ä' ∧ ciEq c3 'I' then
      let ws1 := rest.takeWhile isWs
      let afterWs1 := rest.dropWhile isWs
      let dig := afterWs1.takeWhile isDig
      let afterDig := afterWs1.dropWhile isDig
      let ws2 := afterDig.takeWhile isWs
      let afterWs2 := afterDig.dropWhile isWs
      if ws1.length = 0 ∨ dig.length = 0 ∨ ws2.length = 0 then false
      else match afterWs2 with
        | d :: _ => cleanClassChar d
        | [] => false
    else false
  | _ => false

/-- Whether the lookahead `(?=CH·ª¶ ƒê·ªÄ|B√ÄI\s+\d+\s+[...])` of line 552
succeeds at the head of `s`. -/
def cleanLookahead (s : Str) : Bool :=
  ciIsPrefixOf cleanLit1 s ∨ cleanAlt2 s

/-- Index of the first position where the lookahead of line 552 matches. -/
def findCleanIdx : Str → Option Nat
  | [] => none
  | c :: rest =>
    if cleanLookahead (c :: rest) then some 0
    else (findCleanIdx rest).map (· + 1)

/-- `re.sub(r'^.*?(?=CH·ª¶ ƒê·ªÄ|B√ÄI\s+\d+\s+[...])', '', content,
flags=DOTALL|IGNORECASE)` (line 552): without `MULTILINE` the `^` anchors
at position 0 only, so the substitution removes the prefix up to the first
position where the lookahead succeeds, or nothing if it never does. -/
def cleanSpan (s : Str) : Str :=
  match findCleanIdx s with
  | some i => s.drop i
  | none => s

/-- The strip-leading-remnant stage of lines 550-557: clean, re-strip, and
drop the span if the cleaned content is shorter than 100 characters. -/
def cleanFilter (content : Str) : Option Str :=
  let cleaned := strip (cleanSpan content)
  if cleaned.length < 100 then none else some cleaned

/-- Processing of one would-be lesson span in the strict pass
(lines 531-570): strip, the <50-char noise floor (line 534), the
exercise-section filter (line 539), the >3 lesson-reference
table-of-contents filter (lines 545-548), then remnant cleaning and the
<100-char post-clean floor (lines 552-557). -/
def processSpan (raw : Str) : Option Str :=
  let content := strip raw
  if content.length < 50 then none
  else if isExerciseSection content then none
  else if 3 < countBai content then none
  else cleanFilter content

/-- Span boundaries: each marker position paired with the next marker's
position, the last one paired with the text length (lines 528-529). -/
def rangesFromPositions (len : Nat) : List Nat → List (Nat × Nat)
  | [] => []
  | p :: rest =>
    (p, match rest with | [] => len | q :: _ => q) :: rangesFromPositions len rest

/-- The raw `text[start_pos:end_pos]` slices of the marker-delimited spans. -/
def spanSlices (markers : List LessonMarker) (text : Str) : List Str :=
  (rangesFromPositions text.length (markers.map LessonMarker.position)).map
    fun r => slice text r.1 r.2

/-- `_split_into_lessons` (lines 513-578), parametrised by the detected
marker list.  With no markers the whole text is returned (lines 519-521);
otherwise each marker-delimited span runs through the filter chain.
(The `chapter_buffer` computed in lines 560-567 is never used in the
output and is omitted.) -/
def splitIntoLessons (markers : List LessonMarker) (text : Str) : List Str :=
  if markers = [] then [text]
  else (spanSlices markers text).filterMap processSpan

/-- The per-span fallback filter (lines 594-599): strip, skip only when
shorter than 10 characters. -/
def fallbackSpan (raw : Str) : Option Str :=
  let content := strip raw
  if content.length < 10 then none else some content

/-- `_split_into_lessons_fallback` (lines 580-608), parametrised by the
detected marker list.  With no markers it returns `[]` (lines 586-588). -/
def splitIntoLessonsFallback (markers : List LessonMarker) (text : Str) : List Str :=
  if markers = [] then []
  else (spanSlices markers text).filterMap fallbackSpan

/-- The lesson-list construction of `process_txt` (lines 82-92): strict
split, then the fallback pass if it was empty, then the whole document as
a single lesson if the fallback was also empty.  Both passes re-derive
their markers from the same `full_text`, hence the single `markers`
parameter. -/
def processTxtLessons (markers : List LessonMarker) (text : Str) : List Str :=
  let lessons := splitIntoLessons markers text
  if lessons = [] then
    let fb := splitIntoLessonsFallback markers text
    if fb = [] then [text] else fb
  else lessons

/-! ## Chapter mapper (`_build_chapter_map`, lines 181-270)

The `items` list (chapter and lesson records found by the regex passes,
sorted by position at line 231) is the parameter; the mapping loop of
lines 234-267 is translated below. -/

/-- `item['type']` of the chapter-map items. -/
inductive IKind where
  | chapter | lesson
  deriving DecidableEq, Repr

/-- One element of the `items` list in `_build_chapter_map`. -/
structure CItem where
  kind : IKind
  position : Nat
  number : Nat
  title : Str := []
  full : Str := []
  deriving DecidableEq, Repr

/-- The first `CHAPTER` item found scanning backward, i.e. the last
chapter item of the prefix (`for j in range(i-1, -1, -1) ... break`,
lines 244-250). -/
def lastChapter : List CItem → Option CItem
  | [] => none
  | x :: xs =>
    match lastChapter xs with
    | some c => some c
    | none => if x.kind = IKind.chapter then some x else none

/-- The first `CHAPTER` item scanning forward (lines 253-257). -/
def firstChapter : List CItem → Option CItem
  | [] => none
  | x :: xs => if x.kind = IKind.chapter then some x else firstChapter xs

/-- The chapter assigned to the lesson item at index `i` with position
`lpos` (loop body, lines 240-257): nearest chapter before — kept only if
its `distance = lesson_pos - chapter_pos` is non-negative — else the
first chapter after. -/
def assignChapter (items : List CItem) (i : Nat) (lpos : Nat) : Option CItem :=
  match lastChapter (items.take i) with
  | some c => if c.position ≤ lpos then some c else firstChapter (items.drop (i + 1))
  | none => firstChapter (items.drop (i + 1))

/-- Insert-or-overwrite into the insertion-ordered association list that
models the `chapter_map` dict keyed by lesson number. -/
def setN : List (Nat × CItem) → Nat → CItem → List (Nat × CItem)
  | [], key, v => [(key, v)]
  | (k, w) :: rest, key, v =>
    if k = key then (k, v) :: rest else (k, w) :: setN rest key v

/-- Dict lookup by lesson number. -/
def lookupN : List (Nat × CItem) → Nat → Option CItem
  | [], _ => none
  | (k, v) :: rest, key => if k = key then some v else lookupN rest key

/-- `_build_chapter_map`'s mapping loop (lines 234-267) over a
position-sorted item list: the resulting lesson-number → chapter dict. -/
def buildChapterMap (items : List CItem) : List (Nat × CItem) :=
  (List.range items.length).foldl
    (fun acc i =>
      match items[i]? with
      | some it =>
        if it.kind = IKind.lesson then
          match assignChapter items i it.position with
          | some c => setN acc it.number c
          | none => acc
        else acc
      | none => acc)
    []

/-! ## Semantic-boundary splitting
(`EnhancedDocumentProcessor._split_by_semantic_boundaries`, lines 196-229)

The `re.finditer` passes over the eight section patterns are modelled by
the input `matches` list of `(start, end, sectionType)` triples, exactly
the list the code builds before sorting it by start position. -/

/-- The section types attached by `_smart_chunk_by_sections` (lines 160-168). -/
inductive SType where
  | activity | question | exercise | example | codeBlock | sectionHeading | general
  deriving DecidableEq, Repr

/-- One `(match.start(), match.end(), section_type)` triple. -/
abbrev SMatch := Nat × Nat × SType

/-- Stable insertion by start position (`matches.sort(key=lambda x: x[0])`,
line 206). -/
def insertByStart (m : SMatch) : List SMatch → List SMatch
  | [] => [m]
  | x :: xs => if m.1 < x.1 then m :: x :: xs else x :: insertByStart m xs

/-- Stable sort of the match list by start position. -/
def sortByStart (l : List SMatch) : List SMatch :=
  l.foldl (fun acc m => insertByStart m acc) []

/-- The loop of lines 211-228 over the sorted match list, threading
`prev_end`: optionally a pre-match `general` piece (kept only when
non-empty and longer than 10 chars after strip, lines 216-219), then the
section piece from this match's start to the next match's start (kept when
non-empty after strip, lines 221-225). -/
def sbLoop (text : Str) : Nat → List SMatch → List (Str × SType)
  | _, [] => []
  | prevEnd, (s, _, ty) :: rest =>
    let nextStart := match rest with | [] => text.length | (s2, _, _) :: _ => s2
    let before :=
      if prevEnd < s then
        let bt := strip (slice text prevEnd s)
        if bt ≠ [] ∧ 10 < bt.length then [(bt, SType.general)] else []
      else []
    let sec := strip (slice text s nextStart)
    let secPiece := if sec ≠ [] then [(sec, ty)] else []
    before ++ secPiece ++ sbLoop text nextStart rest

/-- `_split_by_semantic_boundaries` (lines 196-229), parametrised by the
unsorted match list: with no matches the whole (unstripped) text is one
`general` piece (lines 208-209). -/
def splitBySemanticBoundaries (ms : List SMatch) (text : Str) : List (Str × SType) :=
  if ms = [] then [(text, SType.general)]
  else sbLoop text 0 (sortByStart ms)

/-- The boundary ranges induced by the loop of lines 211-228, including
the ranges of pieces that the strip/length filters later drop: the
pre-match range `[prevEnd, s)` when non-degenerate and the section range
`[s, nextStart)`. -/
def sbRanges (len : Nat) : Nat → List SMatch → List (Nat × Nat)
  | _, [] => []
  | prevEnd, (s, _, _) :: rest =>
    let nextStart := match rest with | [] => len | (s2, _, _) :: _ => s2
    (if prevEnd < s then [(prevEnd, s)] else []) ++
      (s, nextStart) :: sbRanges len nextStart rest

/-! ## Context enricher (`_add_context_windows`, lines 279-297)

Chunks are modelled with the fields the enricher reads and writes; the
relative position is modelled as a rational, with Python's
`round(x, 2)` modelled as round-half-to-even at two decimals. -/

/-- A chunk record as seen by `_add_context_windows`.  The relative
position float is stored in hundredths (`relPosH`), since Python's
`round(x, 2)` makes the stored value an integer number of hundredths. -/
structure CChunk where
  content : Str
  prevPreview : Option Str := none
  nextPreview : Option Str := none
  posIndex : Nat := 0
  posTotal : Nat := 0
  relPosH : Nat := 0
  deriving DecidableEq, Repr

/-- Python `content[-100:]`. -/
def last100 (s : Str) : Str := s.drop (s.length - 100)

/-- Python `content[:100]`. -/
def first100 (s : Str) : Str := s.take 100

/-- Round-half-to-even of the fraction `a / d` (for `d > 0`), the model
of Python's `round(x, 2)` applied to `x = a / (100·d)` scaled to
hundredths: with `f = ⌊a/d⌋`, the fractional part compares to `1/2` as
`2(a − f·d)` compares to `d`. -/
def rheDiv (a d : Nat) : Nat :=
  let f := a / d
  let r2 := 2 * (a - f * d)
  if r2 < d then f
  else if d < r2 then f + 1
  else if f % 2 = 0 then f else f + 1

/-- The per-chunk update of lines 281-295: previews from the neighbours'
contents and the position block; `round(i / max(n-1, 1), 2)` is stored
as `rheDiv (100·i) (max (n-1) 1)` hundredths. -/
def ctxUpdate (orig : List CChunk) (n : Nat) (i : Nat) (c : CChunk) : CChunk :=
  { c with
    prevPreview :=
      if 0 < i then (orig[i-1]?).map (fun p => last100 p.content) else c.prevPreview
    nextPreview :=
      if i < n - 1 then (orig[i+1]?).map (fun p => first100 p.content) else c.nextPreview
    posIndex := i
    posTotal := n
    relPosH := rheDiv (100 * i) (max (n - 1) 1) }

/-- Index-threading traversal of the chunk list. -/
def ctxGo (orig : List CChunk) (n : Nat) : Nat → List CChunk → List CChunk
  | _, [] => []
  | i, c :: rest => ctxUpdate orig n i c :: ctxGo orig n (i + 1) rest

/-- `_add_context_windows` (lines 279-297). -/
def addContextWindows (chunks : List CChunk) : List CChunk :=
  ctxGo chunks chunks.length 0 chunks

/-! ## Basic chunker (`_basic_chunk`)

Both `_basic_chunk` implementations delegate the actual splitting to
`langchain_text_splitters.RecursiveCharacterTextSplitter`, a third-party
component whose code is not part of this repository.

Modelled from the spec: §4.6 "Basic mode: a size-bounded recursive
splitter using a priority list of break points (blank line, newline,
sentence terminators, space, hard cut) and a token-counting length
function; overlap is expressed in the same unit as chunk size".  The text
is a list of atoms of the configured unit; a piece never exceeds `size`
atoms (the hard cut guarantees a break), and each piece after the first
additionally carries up to `overlap` atoms of trailing context from its
predecessor. -/

/-- Break-point priority of a position, judged from the atom right before
it: 3 = blank line (two newlines), 2 = newline, 1 = sentence terminator
or space, 0 = no break point. -/
def breakPrio (w : Str) (i : Nat) : Nat :=
  match w[i-1]? with
  | some c =>
    if c = '\n' then (if i ≥ 2 ∧ w[i-2]? = some '\n' then 3 else 2)
    else if c = '.' ∨ c = '!' ∨ c = '?' ∨ c = ' ' then 1
    else 0
  | none => 0

/-- Pick the better of two break candidates: higher priority wins, then
the later position. -/
def pickBreak (w : Str) (best : Option Nat) (i : Nat) : Option Nat :=
  match best with
  | none => some i
  | some j =>
    if breakPrio w j < breakPrio w i ∨ (breakPrio w j = breakPrio w i ∧ j < i)
    then some i else some j

/-- The best break position within the first `size` atoms: the latest
position of the highest available priority, the hard cut at `size` when
no break point exists. -/
def chooseBreak (w : Str) (size : Nat) : Nat :=
  let cand := (List.range (min size w.length + 1)).filter fun i => 0 < i ∧ 0 < breakPrio w i
  match cand.foldl (pickBreak w) none with
  | some i => i
  | none => min size w.length

/-- Modelled from the spec: the size-bounded recursive splitter of §4.6,
fuelled (each step consumes at least one atom, so the text length
suffices as fuel). -/
def recSplitCoreAux (size : Nat) : Nat → Str → List Str
  | 0, s => [s]
  | fuel + 1, s =>
    if s.length ≤ size ∨ size = 0 then [s]
    else
      s.take (max (chooseBreak s size) 1) ::
        recSplitCoreAux size fuel (s.drop (max (chooseBreak s size) 1))

/-- Modelled from the spec: the size-bounded recursive splitter of §4.6.
Emits the core pieces (without overlap); each is at most `size` atoms. -/
def recSplitCore (size : Nat) (s : Str) : List Str := recSplitCoreAux size s.length s

/-- Modelled from the spec: attach up to `overlap` trailing atoms of the
previous piece to each piece after the first. -/
def attachOverlap (overlap : Nat) : List Str → List Str
  | [] => []
  | p :: rest =>
    p :: (rest.zip (p :: rest)).map fun pr => pr.2.drop (pr.2.length - overlap) ++ pr.1

/-- Modelled from the spec: basic-mode chunking — split, attach overlap,
record each piece with its token count (the length in configured units). -/
def basicChunkModel (size overlap : Nat) (text : Str) : List (Str × Nat) :=
  (attachOverlap overlap (recSplitCore size text)).map fun p => (p, p.length)

/-! ## Coverage predicates and concrete inputs -/

/-- `tiles rs lo hi`: the ranges `rs`, in order, exactly cover `[lo, hi)`
with no gaps and no overlaps. -/
def tiles : List (Nat × Nat) → Nat → Nat → Bool
  | [], lo, hi => decide (lo = hi)
  | (a, b) :: rest, lo, hi => decide (a = lo) && decide (a ≤ b) && tiles rest b hi

/-- `_split_into_lessons_fallback` instrumented with the character range
`[start_pos, end_pos)` of each span it keeps (same control flow as
lines 580-608). -/
def fallbackWithRanges (markers : List LessonMarker) (text : Str) :
    List ((Nat × Nat) × Str) :=
  if markers = [] then []
  else
    (rangesFromPositions text.length (markers.map LessonMarker.position)).filterMap
      fun r =>
        match fallbackSpan (slice text r.1 r.2) with
        | some c => some (r, c)
        | none => none

/-- A concrete span with 4 lesson references, ≥ 50 chars, not an exercise
section: the ToC filter drops it. -/
def tocSpan : Str :=
  "B√†i 1 B√†i 2 B√†i 3 B√†i 4 some more filler content here x".toList

/-- A 120-character markerful document for the C10 witness. -/
def longSpanText : Str := List.replicate 120 'a'

/-- A marker at position 0 (fields as the detector would fill them). -/
def longSpanMarker : LessonMarker :=
  ⟨0, 1, [], ['B', '√', 'Ä', 'I', ' ', '1'], PatternId.standaloneUppercase⟩

/-- A document whose only lesson marker sits at position 5: the pattern-2
scan (`B√ÄI \d+: Title`) matches at offset 5 of this text, so the
fallback spans start there and the 5-character prefix is never covered. -/
def cexFallbackText : Str := "introB√ÄI 6: T and more text".toList

/-- The single detected marker of `cexFallbackText`. -/
def cexFallbackMarker : LessonMarker :=
  ⟨5, 6, ['T'], "B√ÄI 6: T".toList, PatternId.uppercaseColon⟩

/-- Two sorted markers at positions 0 and 15 for the C4 witness. -/
def twoMarkers : List LessonMarker :=
  [⟨0, 1, [], "B√ÄI 1".toList, PatternId.standaloneUppercase⟩,
   ⟨15, 2, [], "B√ÄI 2".toList, PatternId.standaloneUppercase⟩]

/-- A 30-character whitespace-free document for the C4 witness. -/
def coverText : Str := List.replicate 30 'x'

/-- The per-key winner of the dedup loop: the fold of lines 394-410
restricted to candidates of one key, threading the currently stored
candidate. -/
def chooseWin (w : LessonMarker) : List LessonMarker → LessonMarker
  | [] => w
  | m :: t => chooseWin (if replaces m w then m else w) t

/-- Two candidates with the same key `(1, none)` that *tie* under the
resolver's preference: both non-ToC, equal title lengths, neither in the
mixed-case set.  First-come wins, so input order decides. -/
def tieA : LessonMarker :=
  ⟨0, 1, ['A', 'B'], "B√ÄI 1".toList, PatternId.standaloneUppercase⟩

/-- The other tying candidate (different title, same length). -/
def tieB : LessonMarker :=
  ⟨40, 1, ['C', 'D'], "B√ÄI 1".toList, PatternId.standaloneUppercase⟩

/-- Two strictly comparable candidates with the same key: `cmpB`'s title
is longer, so it beats `cmpA` in either order. -/
def cmpA : LessonMarker :=
  ⟨0, 1, ['A'], "B√ÄI 1".toList, PatternId.uppercaseDot⟩

/-- The winning candidate of the comparable pair. -/
def cmpB : LessonMarker :=
  ⟨40, 1, ['C', 'D'], "B√†i 1. CD".toList, PatternId.mixedCaseDot⟩

/-- Chapter 1 of the spec's synthetic chapter-mapping document. -/
def exCh1 : CItem := ⟨IKind.chapter, 0, 1, "ONE".toList, "Chapter 1".toList⟩

/-- Chapter 2 of the synthetic document. -/
def exCh2 : CItem := ⟨IKind.chapter, 200, 2, "TWO".toList, "Chapter 2".toList⟩

/-- The position-sorted item list `CHAPTER 1 @ 0`, `LESSON 1 @ 50`,
`CHAPTER 2 @ 200`, `LESSON 2 @ 250` from the spec's test vector. -/
def exItems : List CItem :=
  [exCh1, ⟨IKind.lesson, 50, 1, [], []⟩, exCh2, ⟨IKind.lesson, 250, 2, [], []⟩]

/-- A lesson text whose only semantic-boundary match is a fenced code
block at offset 9: the eight pre-match characters strip to fewer than 11
characters and are silently dropped. -/
def cexSemText : Str := "abcdefgh\n```p```".toList

/-- The single `(start, end, type)` match of `cexSemText` (the code-block
pattern matches at offsets 9-16). -/
def cexSemMatch : SMatch := (9, 16, SType.codeBlock)

/-- A 20-character lesson text for the C5 witness. -/
def semText : Str := "HOAT DONG 1 pha body".toList

/-- A single activity match at the start of `semText`. -/
def semMatches : List SMatch := [(0, 11, SType.activity)]

/-- Four chunks fresh from the chunker (no preview fields yet). -/
def cs4 : List CChunk :=
  [{ content := "alpha".toList }, { content := "beta".toList },
   { content := "gamma".toList }, { content := "delta".toList }]

/-- A 19-atom text for the C8 witness. -/
def chunkText : Str := "abc def. ghij klmno".toList

/-! ## Properties of the strict/fallback segmentation -/

/-- The splitter never returns zero pieces. -/
lemma recSplitCoreAux_ne_nil (size : Nat) :
    ∀ (fuel : Nat) (s : Str), recSplitCoreAux size fuel s ≠ []
  | 0, s => by simp [recSplitCoreAux]
  | fuel + 1, s => by
    simp only [recSplitCoreAux]
    split_ifs with h
    · simp
    · simp

/-- The chunk list of a lesson is never empty. -/
lemma basicChunkModel_ne_nil (size overlap : Nat) (text : Str) :
    basicChunkModel size overlap text ≠ [] := by
  simp only [basicChunkModel, recSplitCore]
  intro h
  rw [List.map_eq_nil] at h
  cases hres : recSplitCoreAux size text.length text with
  | nil => exact recSplitCoreAux_ne_nil size text.length text hres
  | cons p rest =>
    rw [hres] at h
    simp [attachOverlap] at h


/-- A span surviving the strict filter chain is at least 100 chars long. -/
lemma processSpan_length {raw s : Str} (h : processSpan raw = some s) :
    100 ≤ s.length := by
  simp only [processSpan, cleanFilter] at h
  split_ifs at h <;>
    first
      | exact Option.noConfusion h
      | (have hh := Option.some.inj h; subst hh; omega)

/-- A span surviving the fallback filter is at least 10 chars long. -/
lemma fallbackSpan_length {raw s : Str} (h : fallbackSpan raw = some s) :
    10 ≤ s.length := by
  simp only [fallbackSpan] at h
  split_ifs at h <;>
    first
      | exact Option.noConfusion h
      | (have hh := Option.some.inj h; subst hh; omega)

/-- C1: For every non-empty input text, lesson segmentation never yields
zero spans: if the strict pass (`_split_into_lessons`) returns an empty
list the fallback pass runs, and if that is also empty the whole document
becomes the single lesson, so `process_txt` always has at least one
(non-empty) lesson to chunk. -/
theorem processTxtLessons_never_empty (markers : List LessonMarker) (text : Str)
    (h : text ≠ []) :
    processTxtLessons markers text ≠ []
    ∧ (∀ l ∈ processTxtLessons markers text, l ≠ [])
    ∧ ∀ size overlap : Nat, ∀ l ∈ processTxtLessons markers text,
        basicChunkModel size overlap l ≠ [] := by
  have hmem : ∀ l ∈ processTxtLessons markers text, l ≠ [] := by
    intro l hl
    simp only [processTxtLessons] at hl
    split_ifs at hl with h1 h2
    · -- terminal fallback: the whole document
      simp only [List.mem_singleton] at hl
      exact hl ▸ h
    · -- fallback pass spans are ≥ 10 chars
      simp only [splitIntoLessonsFallback] at hl
      split_ifs at hl with h3
      · exact absurd hl (by simp)
      · obtain ⟨raw, _, hr⟩ := List.mem_filterMap.mp hl
        have := fallbackSpan_length hr
        intro hnil; rw [hnil] at this; simp at this
    · -- strict pass: either the whole document or ≥ 100-char spans
      simp only [splitIntoLessons] at hl
      split_ifs at hl with h3
      · simp only [List.mem_singleton] at hl
        exact hl ▸ h
      · obtain ⟨raw, _, hr⟩ := List.mem_filterMap.mp hl
        have := processSpan_length hr
        intro hnil; rw [hnil] at this; simp at this
  refine ⟨?_, hmem, fun size overlap l _ => basicChunkModel_ne_nil size overlap l⟩
  simp only [processTxtLessons]
  split_ifs with h1 h2
  · simp
  · exact h2
  · exact h1

/-- Witness for C1 at a concrete input. -/
theorem processTxtLessons_never_empty_witness :
    processTxtLessons [] (['a'] : Str) ≠ []
    ∧ (∀ l ∈ processTxtLessons [] (['a'] : Str), l ≠ [])
    ∧ ∀ size overlap : Nat, ∀ l ∈ processTxtLessons [] (['a'] : Str),
        basicChunkModel size overlap l ≠ [] :=
  processTxtLessons_never_empty [] ['a'] (by decide)

/-- C7: In the strict pass, once a stripped span has passed the 50-char
noise floor and the exercise-section filter, the table-of-contents
heuristic is decisive: more than 3 occurrences of the lesson-reference
pattern exclude the span, while at most 3 let it continue unchanged to
the remnant-cleaning stage. -/
theorem processSpan_toc_threshold (raw : Str)
    (h50 : 50 ≤ (strip raw).length)
    (hex : isExerciseSection (strip raw) = false) :
    (3 < countBai (strip raw) → processSpan raw = none)
    ∧ (countBai (strip raw) ≤ 3 → processSpan raw = cleanFilter (strip raw)) := by
  constructor
  · intro hgt
    simp only [processSpan]
    rw [if_neg (by omega), if_neg (by simp [hex]), if_pos hgt]
  · intro hle
    simp only [processSpan]
    rw [if_neg (by omega), if_neg (by simp [hex]), if_neg (by omega)]

/-- Witness for C7: the threshold fires at a concrete input. -/
theorem processSpan_toc_threshold_witness : processSpan tocSpan = none :=
  (processSpan_toc_threshold tocSpan (by decide) (by decide)).1 (by decide)

/-- Counterexample to C10 as stated: when no markers are detected,
`_split_into_lessons` returns the whole text as one lesson (line 521),
with no length floor at all — a 10-character markerless document comes
back as a 10-character span. -/
theorem splitIntoLessons_markerless_short_cex :
    ¬ ∀ s ∈ splitIntoLessons [] ("short note".toList), 100 ≤ s.length := by
  decide

/-- C10 (amended): every lesson span that the strict pass produces from a
detected marker (the marker list being non-empty) has length at least 100
after the leading remnant is stripped; sub-100 spans are silently
dropped.  (The markerless whole-document return of line 521 is exempt.) -/
theorem splitIntoLessons_clean_min_length (markers : List LessonMarker) (text : Str)
    (hm : markers ≠ []) :
    ∀ s ∈ splitIntoLessons markers text, 100 ≤ s.length := by
  intro s hs
  simp only [splitIntoLessons] at hs
  split_ifs at hs with h1
  · exact absurd h1 hm
  · obtain ⟨raw, _, hr⟩ := List.mem_filterMap.mp hs
    exact processSpan_length hr

set_option maxRecDepth 10000 in
/-- Witness for C10 (amended) at a concrete input: the single span the
strict pass returns on the 120-character document is 120 chars long. -/
theorem splitIntoLessons_clean_min_length_witness :
    100 ≤ (List.replicate 120 'a' : Str).length :=
  splitIntoLessons_clean_min_length [longSpanMarker] longSpanText (by decide)
    (List.replicate 120 'a') (by decide)

/-! ## C4: fallback coverage -/

/-- Consecutive marker-delimited ranges tile from the first position to
the end of the document. -/
lemma tiles_rangesFromPositions (len : Nat) :
    ∀ (rest : List Nat) (p : Nat), (p :: rest).Pairwise (· ≤ ·) →
      (∀ q ∈ p :: rest, q ≤ len) →
      tiles (rangesFromPositions len (p :: rest)) p len = true
  | [], p, _, hb => by
    have hp := hb p (by simp)
    simp [rangesFromPositions, tiles, hp]
  | q :: rest, p, hs, hb => by
    have hpq : p ≤ q := (List.pairwise_cons.mp hs).1 q (by simp)
    have ih := tiles_rangesFromPositions len rest q (List.pairwise_cons.mp hs).2
      (fun x hx => hb x (List.mem_cons_of_mem _ hx))
    have hstep : rangesFromPositions len (p :: q :: rest)
        = (p, q) :: rangesFromPositions len (q :: rest) := rfl
    rw [hstep]
    simp only [tiles, Bool.and_eq_true, decide_eq_true_eq] at ih ⊢
    exact ⟨⟨trivial, hpq⟩, ih⟩

/-- When no span falls under the fallback 10-char floor, the kept ranges
are exactly the marker-delimited ranges. -/
lemma fallback_kept_ranges (text : Str) :
    ∀ rs : List (Nat × Nat), (∀ r ∈ rs, 10 ≤ (strip (slice text r.1 r.2)).length) →
      ((rs.filterMap fun r =>
          match fallbackSpan (slice text r.1 r.2) with
          | some c => some (r, c)
          | none => none).map Prod.fst) = rs
  | [], _ => rfl
  | r :: rs, h => by
    have h10 : ¬ (strip (slice text r.1 r.2)).length < 10 := by
      have := h r (by simp)
      omega
    have hspan : fallbackSpan (slice text r.1 r.2) = some (strip (slice text r.1 r.2)) := by
      simp only [fallbackSpan]
      rw [if_neg h10]
    simp only [List.filterMap_cons, hspan, List.map_cons]
    exact congrArg (r :: ·) (fallback_kept_ranges text rs
      fun x hx => h x (List.mem_cons_of_mem _ hx))

/-- The instrumented fallback agrees with the source's
`_split_into_lessons_fallback` on the spans it returns. -/
lemma fallbackWithRanges_snd (markers : List LessonMarker) (text : Str) :
    (fallbackWithRanges markers text).map Prod.snd
      = splitIntoLessonsFallback markers text := by
  simp only [fallbackWithRanges, splitIntoLessonsFallback]
  split_ifs with h
  · simp
  · rw [List.map_filterMap]
    simp only [spanSlices, List.filterMap_map]
    congr 1
    funext r
    cases hs : fallbackSpan (slice text r.1 r.2) <;>
      simp [hs, Function.comp]

/-- Counterexample to C4 as stated: a document whose single detected
marker sits at offset 5.  The fallback returns a (non-empty) span list,
but the returned ranges do not cover the document: characters 0-4 are in
no span. -/
theorem fallback_coverage_cex :
    cexFallbackText ≠ [] ∧ ([cexFallbackMarker] : List LessonMarker) ≠ []
    ∧ splitIntoLessonsFallback [cexFallbackMarker] cexFallbackText ≠ []
    ∧ tiles ((fallbackWithRanges [cexFallbackMarker] cexFallbackText).map Prod.fst) 0
        cexFallbackText.length = false := by
  decide

/-- C4 (amended): in fallback mode the marker-delimited character ranges
tile the region from the *first marker's position* to the end of the
document with no gaps and no overlaps; the returned spans are these
ranges' stripped contents, and provided no span is dropped by the
10-character floor, the kept ranges are exactly that tiling.  Text before
the first marker is never covered, and a dropped short span would leave a
gap. -/
theorem fallback_ranges_tile (markers : List LessonMarker) (text : Str)
    (m0 : LessonMarker) (rest : List LessonMarker)
    (hm : markers = m0 :: rest)
    (hsort : markers.Pairwise fun a b => a.position ≤ b.position)
    (hbound : ∀ m ∈ markers, m.position ≤ text.length)
    (hkeep : ∀ r ∈ rangesFromPositions text.length (markers.map LessonMarker.position),
        10 ≤ (strip (slice text r.1 r.2)).length) :
    (fallbackWithRanges markers text).map Prod.snd
      = splitIntoLessonsFallback markers text
    ∧ tiles ((fallbackWithRanges markers text).map Prod.fst) m0.position text.length
        = true := by
  refine ⟨fallbackWithRanges_snd markers text, ?_⟩
  subst hm
  simp only [fallbackWithRanges]
  rw [if_neg (by simp)]
  rw [fallback_kept_ranges text _ hkeep]
  simp only [List.map_cons]
  exact tiles_rangesFromPositions text.length (rest.map LessonMarker.position)
    m0.position
    (by
      have := hsort.map LessonMarker.position
        (fun a b (hab : a.position ≤ b.position) => hab)
      simpa using this)
    (by
      intro q hq
      simp only [← List.map_cons] at hq
      obtain ⟨m, hmem, hqe⟩ := List.mem_map.mp hq
      exact hqe ▸ hbound m hmem)

/-- Witness for C4 (amended) at a concrete input: two markers at 0 and 15
on a 30-character document tile `[0, 30)`. -/
theorem fallback_ranges_tile_witness :
    (fallbackWithRanges twoMarkers coverText).map Prod.snd
      = splitIntoLessonsFallback twoMarkers coverText
    ∧ tiles ((fallbackWithRanges twoMarkers coverText).map Prod.fst) 0
        coverText.length = true :=
  fallback_ranges_tile twoMarkers coverText _ _ rfl (by decide) (by decide) (by decide)

/-! ## C6: the resolved marker list is sorted and key-unique -/

/-- Members of an insertion are the inserted element or old members. -/
lemma mem_insertByPos {y m : LessonMarker} :
    ∀ l, y ∈ insertByPos m l → y = m ∨ y ∈ l
  | [] => by simp [insertByPos]
  | x :: xs => by
    simp only [insertByPos]
    split_ifs with hlt
    · intro hy
      rcases List.mem_cons.mp hy with h | h
      · exact Or.inl h
      · exact Or.inr h
    · intro hy
      rcases List.mem_cons.mp hy with h | h
      · exact Or.inr (h ▸ List.mem_cons_self x xs)
      · rcases mem_insertByPos xs h with h2 | h2
        · exact Or.inl h2
        · exact Or.inr (List.mem_cons_of_mem x h2)

/-- Insertion preserves sortedness by position. -/
lemma pairwise_insertByPos {m : LessonMarker} :
    ∀ l, l.Pairwise (fun a b => a.position ≤ b.position) →
      (insertByPos m l).Pairwise (fun a b => a.position ≤ b.position)
  | [], _ => by simp [insertByPos]
  | x :: xs, h => by
    obtain ⟨hx, hxs⟩ := List.pairwise_cons.mp h
    simp only [insertByPos]
    split_ifs with hlt
    · refine List.pairwise_cons.mpr ⟨?_, h⟩
      intro y hy
      rcases List.mem_cons.mp hy with rfl | hy2
      · exact Nat.le_of_lt hlt
      · exact Nat.le_trans (Nat.le_of_lt hlt) (hx y hy2)
    · refine List.pairwise_cons.mpr ⟨?_, pairwise_insertByPos xs hxs⟩
      intro y hy
      rcases mem_insertByPos xs hy with rfl | hy2
      · exact Nat.le_of_not_lt hlt
      · exact hx y hy2

/-- The insertion-sort fold keeps the accumulator sorted. -/
lemma foldl_insertByPos_pairwise :
    ∀ (l acc : List LessonMarker),
      acc.Pairwise (fun a b => a.position ≤ b.position) →
      (l.foldl (fun a m => insertByPos m a) acc).Pairwise
        (fun a b => a.position ≤ b.position)
  | [], _, h => h
  | m :: l, acc, h =>
    foldl_insertByPos_pairwise l (insertByPos m acc) (pairwise_insertByPos acc h)

/-- `sortByPos` sorts by position. -/
lemma sortByPos_pairwise (l : List LessonMarker) :
    (sortByPos l).Pairwise (fun a b => a.position ≤ b.position) :=
  foldl_insertByPos_pairwise l [] List.Pairwise.nil

/-- Insertion is a permutation of consing. -/
lemma insertByPos_perm (m : LessonMarker) :
    ∀ l, (insertByPos m l).Perm (m :: l)
  | [] => List.Perm.refl _
  | x :: xs => by
    simp only [insertByPos]
    split_ifs with hlt
    · exact List.Perm.refl _
    · exact ((insertByPos_perm m xs).cons x).trans (List.Perm.swap m x xs)

/-- The insertion-sort fold permutes the accumulator and the input. -/
lemma foldl_insertByPos_perm :
    ∀ (l acc : List LessonMarker),
      (l.foldl (fun a m => insertByPos m a) acc).Perm (acc ++ l)
  | [], acc => by simp
  | m :: l, acc => by
    refine (foldl_insertByPos_perm l (insertByPos m acc)).trans ?_
    refine (((insertByPos_perm m acc).append_right l).trans ?_)
    exact List.perm_middle.symm

/-- `sortByPos` is a permutation. -/
lemma sortByPos_perm (l : List LessonMarker) : (sortByPos l).Perm l := by
  simpa using foldl_insertByPos_perm l []

/-- A key that looks up to nothing is held by no entry. -/
lemma lookupA_none : ∀ (acc : List (MKey × LessonMarker)) {k : MKey},
    lookupA acc k = none → ∀ p ∈ acc, p.1 ≠ k
  | [], _, _ => by simp
  | (k0, v0) :: rest, k, h => by
    simp only [lookupA] at h
    have hne : k0 ≠ k := by
      intro he
      rw [if_pos he] at h
      exact Option.noConfusion h
    have hrest : lookupA rest k = none := by rwa [if_neg hne] at h
    intro p hp
    rcases List.mem_cons.mp hp with rfl | hp2
    · exact hne
    · exact lookupA_none rest hrest p hp2

/-- Members after a keyed update. -/
lemma setA_mem {k : MKey} {v : LessonMarker} {p : MKey × LessonMarker} :
    ∀ acc, p ∈ setA acc k v → p = (k, v) ∨ p ∈ acc
  | [] => by simp [setA]
  | (k0, w0) :: rest => by
    simp only [setA]
    split_ifs with he
    · intro hp
      rcases List.mem_cons.mp hp with rfl | hp2
      · exact Or.inl (by rw [he])
      · exact Or.inr (List.mem_cons_of_mem _ hp2)
    · intro hp
      rcases List.mem_cons.mp hp with rfl | hp2
      · exact Or.inr (List.mem_cons_self _ _)
      · rcases setA_mem rest hp2 with h2 | h2
        · exact Or.inl h2
        · exact Or.inr (List.mem_cons_of_mem _ h2)

/-- Updating a present key leaves the key sequence unchanged. -/
lemma setA_map_fst {k : MKey} {v old : LessonMarker} :
    ∀ acc, lookupA acc k = some old →
      (setA acc k v).map Prod.fst = acc.map Prod.fst
  | [], h => by simp [lookupA] at h
  | (k0, w0) :: rest, h => by
    simp only [lookupA] at h
    simp only [setA]
    split_ifs at h ⊢ with he
    · simp
    · simp only [List.map_cons, List.cons.injEq, true_and]
      exact setA_map_fst rest h

/-- Step equation for an absent key. -/
lemma dedupStep_none {acc : List (MKey × LessonMarker)} {m : LessonMarker}
    (h : lookupA acc (markerKey m) = none) :
    dedupStep acc m = acc ++ [(markerKey m, m)] := by
  simp [dedupStep, h]

/-- Step equation for a present key. -/
lemma dedupStep_some {acc : List (MKey × LessonMarker)} {m old : LessonMarker}
    (h : lookupA acc (markerKey m) = some old) :
    dedupStep acc m = if replaces m old then setA acc (markerKey m) m else acc := by
  simp [dedupStep, h]

/-- Invariant of the dedup fold: keys are duplicate-free and each entry's
key is the key of its stored candidate. -/
lemma dedup_invariant :
    ∀ (ms : List LessonMarker) (acc : List (MKey × LessonMarker)),
      (acc.map Prod.fst).Nodup → (∀ p ∈ acc, p.1 = markerKey p.2) →
      ((ms.foldl dedupStep acc).map Prod.fst).Nodup
      ∧ ∀ p ∈ ms.foldl dedupStep acc, p.1 = markerKey p.2
  | [], acc, h1, h2 => ⟨h1, h2⟩
  | m :: ms, acc, h1, h2 => by
    have hstep : ((dedupStep acc m).map Prod.fst).Nodup
        ∧ ∀ p ∈ dedupStep acc m, p.1 = markerKey p.2 := by
      cases hl : lookupA acc (markerKey m) with
      | none =>
        rw [dedupStep_none hl]
        constructor
        · rw [List.map_append]
          refine List.Nodup.append h1 (by simp) ?_
          intro a ha hb
          simp only [List.map_cons, List.map_nil, List.mem_singleton] at hb
          obtain ⟨p, hp, hpe⟩ := List.mem_map.mp ha
          exact lookupA_none acc hl p hp (hpe.trans hb)
        · intro p hp
          rcases List.mem_append.mp hp with hin | hin
          · exact h2 p hin
          · simp only [List.mem_singleton] at hin
            rw [hin]
      | some old =>
        rw [dedupStep_some hl]
        split_ifs with hr
        · constructor
          · rw [setA_map_fst acc hl]
            exact h1
          · intro p hp
            rcases setA_mem acc hp with rfl | hin
            · rfl
            · exact h2 p hin
        · exact ⟨h1, h2⟩
    exact dedup_invariant ms (dedupStep acc m) hstep.1 hstep.2

/-- C6: For every candidate list, the resolved marker list produced by
`_find_lesson_markers` is sorted in non-decreasing position order and no
two resolved markers share the same `(number, variant)` key. -/
theorem findLessonMarkers_sorted_unique (cands : List LessonMarker) :
    (findLessonMarkersFrom cands).Pairwise (fun a b => a.position ≤ b.position)
    ∧ (findLessonMarkersFrom cands).Pairwise (fun a b => markerKey a ≠ markerKey b) := by
  constructor
  · exact sortByPos_pairwise _
  · have hinv := dedup_invariant cands [] (by simp) (by simp)
    have hkeys : (dedupMarkers cands).Pairwise (fun p q => p.1 ≠ q.1) :=
      List.pairwise_map.mp hinv.1
    have hvals : ((dedupMarkers cands).map Prod.snd).Pairwise
        (fun a b => markerKey a ≠ markerKey b) := by
      rw [List.pairwise_map]
      refine hkeys.imp_of_mem ?_
      intro a b ha hb hne
      rw [← hinv.2 a ha, ← hinv.2 b hb]
      exact hne
    have hperm := sortByPos_perm ((dedupMarkers cands).map Prod.snd)
    exact (hperm.pairwise_iff (fun h => h.symm)).mpr hvals

/-! ## C3: order-(in)dependence of marker resolution -/

/-- Propositional characterisation of the resolver's preference. -/
lemma replaces_iff {a b : LessonMarker} :
    replaces a b = true ↔
      a.patternId ≠ PatternId.tableOfContents ∧
      (b.patternId = PatternId.tableOfContents
       ∨ b.title.length < a.title.length
       ∨ (a.title.length = b.title.length
          ∧ inMixedSet a.patternId = true ∧ inUpperSet b.patternId = true)) := by
  simp only [replaces]
  split_ifs with h1 h2 h3 h4 <;> simp_all <;> tauto

/-- No pattern tag is in both preference sets. -/
lemma mixed_not_upper {p : PatternId} (h : inMixedSet p = true) :
    inUpperSet p = false := by
  cases p <;> simp_all [inMixedSet, inUpperSet]

/-- The preference is irreflexive. -/
lemma replaces_irrefl (a : LessonMarker) : replaces a a = false := by
  cases hv : replaces a a
  · rfl
  · obtain ⟨ha, hd⟩ := replaces_iff.mp hv
    rcases hd with h | h | ⟨_, hm, hu⟩
    · exact absurd h ha
    · omega
    · rw [mixed_not_upper hm] at hu
      exact Bool.noConfusion hu

/-- The preference is transitive. -/
lemma replaces_trans {a b c : LessonMarker}
    (hab : replaces a b = true) (hbc : replaces b c = true) :
    replaces a c = true := by
  obtain ⟨ha, hd1⟩ := replaces_iff.mp hab
  obtain ⟨hb, hd2⟩ := replaces_iff.mp hbc
  refine replaces_iff.mpr ⟨ha, ?_⟩
  rcases hd1 with h1 | h1 | ⟨h1, hm1, hu1⟩
  · exact absurd h1 hb
  · rcases hd2 with h2 | h2 | ⟨h2, _, _⟩
    · exact Or.inl h2
    · exact Or.inr (Or.inl (by omega))
    · exact Or.inr (Or.inl (by omega))
  · rcases hd2 with h2 | h2 | ⟨_, hm2, _⟩
    · exact Or.inl h2
    · exact Or.inr (Or.inl (by omega))
    · rw [mixed_not_upper hm2] at hu1
      exact Bool.noConfusion hu1

/-- The preference is asymmetric. -/
lemma replaces_asymm {a b : LessonMarker} (hab : replaces a b = true) :
    replaces b a = false := by
  cases hv : replaces b a
  · rfl
  · have := replaces_trans hab hv
    rw [replaces_irrefl a] at this
    exact Bool.noConfusion this

/-- The fold's winner is one of the candidates. -/
lemma chooseWin_mem : ∀ (t : List LessonMarker) (w : LessonMarker),
    chooseWin w t ∈ w :: t
  | [], w => by simp [chooseWin]
  | m :: t, w => by
    simp only [chooseWin]
    by_cases h : replaces m w = true
    · rw [if_pos h]
      rcases List.mem_cons.mp (chooseWin_mem t m) with h2 | h2
      · rw [h2]; simp
      · simp [h2]
    · rw [if_neg h]
      rcases List.mem_cons.mp (chooseWin_mem t w) with h2 | h2
      · rw [h2]; simp
      · simp [h2]

/-- The winner is the start or beats the start. -/
lemma chooseWin_start : ∀ (t : List LessonMarker) (w : LessonMarker),
    chooseWin w t = w ∨ replaces (chooseWin w t) w = true
  | [], _ => Or.inl rfl
  | m :: t, w => by
    simp only [chooseWin]
    by_cases h : replaces m w = true
    · rw [if_pos h]
      rcases chooseWin_start t m with h2 | h2
      · refine Or.inr ?_
        rw [h2]
        exact h
      · exact Or.inr (replaces_trans h2 h)
    · rw [if_neg h]
      exact chooseWin_start t w

/-- No candidate beats the fold's winner. -/
lemma chooseWin_unbeaten : ∀ (t : List LessonMarker) (w x : LessonMarker),
    x ∈ w :: t → replaces x (chooseWin w t) = false
  | [], w, x, hx => by
    simp only [List.mem_singleton] at hx
    rw [hx]
    exact replaces_irrefl w
  | m :: t, w, x, hx => by
    simp only [chooseWin]
    by_cases h : replaces m w = true
    · rw [if_pos h]
      rcases List.mem_cons.mp hx with hxe | hx2
      · cases hv : replaces x (chooseWin m t)
        · rfl
        · exfalso
          have hxm : replaces x m = true := by
            rcases chooseWin_start t m with h2 | h2
            · rw [h2] at hv; exact hv
            · exact replaces_trans hv h2
          have hxw := replaces_trans hxm h
          rw [hxe, replaces_irrefl w] at hxw
          exact Bool.noConfusion hxw
      · exact chooseWin_unbeaten t m x hx2
    · rw [if_neg h]
      rcases List.mem_cons.mp hx with hxe | hx2
      · rw [hxe]
        exact chooseWin_unbeaten t w w (List.mem_cons_self _ _)
      · rcases List.mem_cons.mp hx2 with hxm | hx3
        · cases hv : replaces x (chooseWin w t)
          · rfl
          · exfalso
            have hxw : replaces x w = true := by
              rcases chooseWin_start t w with h2 | h2
              · rw [h2] at hv; exact hv
              · exact replaces_trans hv h2
            rw [hxm] at hxw
            exact h hxw
        · exact chooseWin_unbeaten t w x (List.mem_cons_of_mem _ hx3)

/-- The dedup fold on a single-key candidate list, from a one-entry dict. -/
lemma foldl_dedup_single (k : MKey) :
    ∀ (l : List LessonMarker) (w : LessonMarker),
      (∀ m ∈ l, markerKey m = k) → markerKey w = k →
      List.foldl dedupStep [(k, w)] l = [(k, chooseWin w l)]
  | [], _, _, _ => rfl
  | m :: l, w, h, hw => by
    simp only [List.foldl_cons, chooseWin]
    have hm : markerKey m = k := h m (by simp)
    have hstep : dedupStep [(k, w)] m = [(k, if replaces m w then m else w)] := by
      have hlk : lookupA [(k, w)] (markerKey m) = some w := by
        simp [lookupA, hm]
      rw [dedupStep_some hlk]
      split_ifs with hr
      · simp [setA, hm]
      · rfl
    rw [hstep]
    refine foldl_dedup_single k l _ (fun x hx => h x (List.mem_cons_of_mem _ hx)) ?_
    split_ifs with hr
    · exact hm
    · exact hw

/-- On a single-key candidate list the dedup dict is one entry: the
fold's winner. -/
lemma dedupMarkers_single (k : MKey) (l : List LessonMarker)
    (hk : ∀ m ∈ l, markerKey m = k) :
    dedupMarkers l = match l with
      | [] => []
      | w :: t => [(k, chooseWin w t)] := by
  cases l with
  | nil => rfl
  | cons w t =>
    simp only [dedupMarkers, List.foldl_cons]
    have hw : markerKey w = k := hk w (by simp)
    have h0 : dedupStep [] w = [(k, w)] := by
      simp [dedupStep, lookupA, hw]
    rw [h0]
    exact foldl_dedup_single k t w (fun x hx => hk x (List.mem_cons_of_mem _ hx)) hw

/-- Counterexample to C3 as stated: two candidates with the same key that
tie under the resolver's preference (equal title lengths, same pattern
class).  Feeding them in the two orders yields different resolved
markers, so resolution is not order-independent. -/
theorem resolver_order_cex :
    markerKey tieA = markerKey tieB
    ∧ (List.Perm [tieA, tieB] [tieB, tieA])
    ∧ findLessonMarkersFrom [tieA, tieB] ≠ findLessonMarkersFrom [tieB, tieA] := by
  refine ⟨by decide, List.Perm.swap tieB tieA [], by decide⟩

/-- C3 (amended): the dedup of `_find_lesson_markers` is
order-independent *provided* the same-key candidates are pairwise
strictly comparable under the preference of lines 399-410 (no ties); a
tie is broken by first-come order.  Under that proviso any permutation of
the candidate list yields the same resolved marker list. -/
theorem resolver_deterministic_no_ties (l₁ l₂ : List LessonMarker) (k : MKey)
    (hk : ∀ m ∈ l₁, markerKey m = k)
    (hcomp : ∀ a ∈ l₁, ∀ b ∈ l₁, a ≠ b → replaces a b = true ∨ replaces b a = true)
    (hperm : l₁.Perm l₂) :
    findLessonMarkersFrom l₁ = findLessonMarkersFrom l₂ := by
  cases l₁ with
  | nil =>
    have h2 : l₂ = [] := hperm.symm.eq_nil
    rw [h2]
  | cons w₁ t₁ =>
    cases l₂ with
    | nil =>
      have := hperm.length_eq
      simp at this
    | cons w₂ t₂ =>
      have hk₂ : ∀ m ∈ w₂ :: t₂, markerKey m = k := fun m hm =>
        hk m (hperm.mem_iff.mpr hm)
      have e₁ := dedupMarkers_single k (w₁ :: t₁) hk
      have e₂ := dedupMarkers_single k (w₂ :: t₂) hk₂
      have hc₁mem : chooseWin w₁ t₁ ∈ w₁ :: t₁ := chooseWin_mem t₁ w₁
      have hc₂mem : chooseWin w₂ t₂ ∈ w₂ :: t₂ := chooseWin_mem t₂ w₂
      have hc₂mem₁ : chooseWin w₂ t₂ ∈ w₁ :: t₁ := hperm.mem_iff.mpr hc₂mem
      have hc₁mem₂ : chooseWin w₁ t₁ ∈ w₂ :: t₂ := hperm.mem_iff.mp hc₁mem
      have hub₁ : replaces (chooseWin w₂ t₂) (chooseWin w₁ t₁) = false :=
        chooseWin_unbeaten t₁ w₁ _ hc₂mem₁
      have hub₂ : replaces (chooseWin w₁ t₁) (chooseWin w₂ t₂) = false :=
        chooseWin_unbeaten t₂ w₂ _ hc₁mem₂
      have heq : chooseWin w₁ t₁ = chooseWin w₂ t₂ := by
        by_contra hne
        rcases hcomp _ hc₁mem _ hc₂mem₁ hne with hcp | hcp
        · rw [hub₂] at hcp; exact Bool.noConfusion hcp
        · rw [hub₁] at hcp; exact Bool.noConfusion hcp
      simp only [findLessonMarkersFrom, e₁, e₂, heq]

/-- Witness for C3 (amended): a strictly comparable same-key pair gives
the same resolution in both orders. -/
theorem resolver_deterministic_no_ties_witness :
    findLessonMarkersFrom [cmpA, cmpB] = findLessonMarkersFrom [cmpB, cmpA] :=
  resolver_deterministic_no_ties [cmpA, cmpB] [cmpB, cmpA] (1, none)
    (by decide) (by decide) (List.Perm.swap cmpB cmpA [])

/-! ## C2: chapter mapping -/

/-- Equation for the backward scan on a cons cell. -/
lemma lastChapter_cons (x : CItem) (xs : List CItem) :
    lastChapter (x :: xs) = match lastChapter xs with
      | some c => some c
      | none => if x.kind = IKind.chapter then some x else none := rfl

/-- The backward scan's result is a chapter item of the scanned prefix. -/
lemma lastChapter_mem : ∀ (l : List CItem) (c : CItem),
    lastChapter l = some c → c ∈ l ∧ c.kind = IKind.chapter
  | [], c => by simp [lastChapter]
  | x :: xs, c => by
    rw [lastChapter_cons]
    cases h2 : lastChapter xs with
    | some c2 =>
      intro he
      have hec := Option.some.inj he
      subst hec
      have ih := lastChapter_mem xs c2 h2
      exact ⟨List.mem_cons_of_mem _ ih.1, ih.2⟩
    | none =>
      split_ifs with hk
      · intro he
        have hec := Option.some.inj he
        subst hec
        exact ⟨List.mem_cons_self _ _, hk⟩
      · intro he
        cases he

/-- An empty backward scan means the prefix holds no chapter item. -/
lemma lastChapter_none : ∀ (l : List CItem),
    lastChapter l = none → ∀ x ∈ l, x.kind ≠ IKind.chapter
  | [], _ => by simp
  | x :: xs, h => by
    rw [lastChapter_cons] at h
    cases h2 : lastChapter xs with
    | some c2 =>
      rw [h2] at h
      cases h
    | none =>
      rw [h2] at h
      split_ifs at h with hk
      intro y hy
      rcases List.mem_cons.mp hy with hye | hym
      · rw [hye]; exact hk
      · exact lastChapter_none xs h2 y hym

/-- In a sorted prefix, the backward scan finds the chapter with the
largest position. -/
lemma lastChapter_max : ∀ (l : List CItem),
    l.Pairwise (fun a b => a.position ≤ b.position) →
    ∀ c, lastChapter l = some c →
    ∀ x ∈ l, x.kind = IKind.chapter → x.position ≤ c.position
  | [], _ => by simp [lastChapter]
  | y :: ys, hs => by
    intro c hc x hx hxk
    rw [lastChapter_cons] at hc
    cases h2 : lastChapter ys with
    | some c2 =>
      rw [h2] at hc
      have hec := Option.some.inj hc
      rw [← hec]
      rcases List.mem_cons.mp hx with hxe | hxm
      · rw [hxe]
        exact (List.pairwise_cons.mp hs).1 c2 (lastChapter_mem ys c2 h2).1
      · exact lastChapter_max ys (List.pairwise_cons.mp hs).2 c2 h2 x hxm hxk
    | none =>
      rw [h2] at hc
      split_ifs at hc with hk
      have hec := Option.some.inj hc
      rw [← hec]
      rcases List.mem_cons.mp hx with hxe | hxm
      · rw [hxe]
      · exact absurd hxk (lastChapter_none ys h2 x hxm)

/-- The forward scan's result is a chapter item of the scanned suffix. -/
lemma firstChapter_mem : ∀ (l : List CItem) (c : CItem),
    firstChapter l = some c → c ∈ l ∧ c.kind = IKind.chapter
  | [], c => by simp [firstChapter]
  | x :: xs, c => by
    simp only [firstChapter]
    split_ifs with hk
    · intro he
      have hec := Option.some.inj he
      subst hec
      exact ⟨List.mem_cons_self _ _, hk⟩
    · intro he
      have ih := firstChapter_mem xs c he
      exact ⟨List.mem_cons_of_mem _ ih.1, ih.2⟩

/-- In a sorted suffix, the forward scan finds the chapter with the
smallest position. -/
lemma firstChapter_min : ∀ (l : List CItem),
    l.Pairwise (fun a b => a.position ≤ b.position) →
    ∀ c, firstChapter l = some c →
    ∀ x ∈ l, x.kind = IKind.chapter → c.position ≤ x.position
  | [], _ => by simp [firstChapter]
  | y :: ys, hs => by
    intro c hc x hx hxk
    simp only [firstChapter] at hc
    split_ifs at hc with hk
    · have hec := Option.some.inj hc
      subst hec
      rcases List.mem_cons.mp hx with hxe | hxm
      · rw [hxe]
      · exact (List.pairwise_cons.mp hs).1 x hxm
    · rcases List.mem_cons.mp hx with hxe | hxm
      · rw [hxe] at hxk
        exact absurd hxk hk
      · exact firstChapter_min ys (List.pairwise_cons.mp hs).2 c hc x hxm hxk

/-- Equation for the mapping loop body when a chapter precedes. -/
lemma assignChapter_of_last {items : List CItem} {i lpos : Nat} {c0 : CItem}
    (h : lastChapter (items.take i) = some c0) :
    assignChapter items i lpos =
      if c0.position ≤ lpos then some c0 else firstChapter (items.drop (i + 1)) := by
  simp [assignChapter, h]

/-- Equation for the mapping loop body when no chapter precedes. -/
lemma assignChapter_of_none {items : List CItem} {i lpos : Nat}
    (h : lastChapter (items.take i) = none) :
    assignChapter items i lpos = firstChapter (items.drop (i + 1)) := by
  simp [assignChapter, h]

/-- C2: For every position-sorted interleaved item list (chapter and
lesson positions distinct), the loop body of `_build_chapter_map` assigns
a lesson to the nearest chapter with a strictly smaller position, and
only when no chapter precedes it, to the nearest chapter with a larger
position; on the spec's synthetic document `CHAPTER 1 @ 0, LESSON 1 @ 50,
CHAPTER 2 @ 200, LESSON 2 @ 250` the resulting map sends lesson 1 to
chapter 1 and lesson 2 to chapter 2. -/
theorem chapter_map_nearest :
    (∀ (pre post : List CItem) (L : CItem),
      (pre ++ L :: post).Pairwise (fun a b => a.position ≤ b.position) →
      (∀ a ∈ pre ++ L :: post, ∀ b ∈ pre ++ L :: post,
         a.kind = IKind.chapter → b.kind = IKind.lesson → a.position ≠ b.position) →
      L.kind = IKind.lesson →
      ∀ c, assignChapter (pre ++ L :: post) pre.length L.position = some c →
        c ∈ pre ++ L :: post ∧ c.kind = IKind.chapter ∧
        ((c.position < L.position
          ∧ ∀ x ∈ pre ++ L :: post, x.kind = IKind.chapter →
              x.position < L.position → x.position ≤ c.position)
         ∨ ((∀ x ∈ pre ++ L :: post, x.kind = IKind.chapter → L.position < x.position)
            ∧ L.position < c.position
            ∧ ∀ x ∈ pre ++ L :: post, x.kind = IKind.chapter →
                c.position ≤ x.position)))
    ∧ (lookupN (buildChapterMap exItems) 1).map CItem.number = some 1
    ∧ (lookupN (buildChapterMap exItems) 2).map CItem.number = some 2 := by
  refine ⟨?_, by decide, by decide⟩
  intro pre post L hsort hsep hles c hc
  have htake : (pre ++ L :: post).take pre.length = pre := List.take_left pre (L :: post)
  have hdrop : (pre ++ L :: post).drop (pre.length + 1) = post := by
    have h1 : List.drop pre.length (pre ++ L :: post) = L :: post :=
      List.drop_left pre (L :: post)
    have h2 : List.drop (pre.length + 1) (pre ++ L :: post)
        = List.drop 1 (List.drop pre.length (pre ++ L :: post)) := by
      rw [List.drop_drop]
    rw [h2, h1]
    rfl
  have hPW := List.pairwise_append.mp hsort
  have hpre_le : ∀ x ∈ pre, x.position ≤ L.position := fun x hx =>
    hPW.2.2 x hx L (List.mem_cons_self _ _)
  have hpost_ge : ∀ x ∈ post, L.position ≤ x.position :=
    (List.pairwise_cons.mp hPW.2.1).1
  have hLmem : L ∈ pre ++ L :: post :=
    List.mem_append.mpr (Or.inr (List.mem_cons_self _ _))
  cases hlc : lastChapter pre with
  | some c0 =>
    have hm0 := lastChapter_mem pre c0 hlc
    have hle : c0.position ≤ L.position := hpre_le c0 hm0.1
    rw [assignChapter_of_last (htake.symm ▸ hlc), if_pos hle] at hc
    have hec := Option.some.inj hc
    subst hec
    have hmem : c0 ∈ pre ++ L :: post := List.mem_append.mpr (Or.inl hm0.1)
    refine ⟨hmem, hm0.2, Or.inl ⟨?_, ?_⟩⟩
    · exact lt_of_le_of_ne hle (hsep c0 hmem L hLmem hm0.2 hles)
    · intro x hxmem hxk hxlt
      rcases List.mem_append.mp hxmem with hxpre | hxLpost
      · exact lastChapter_max pre hPW.1 c0 hlc x hxpre hxk
      · rcases List.mem_cons.mp hxLpost with hxe | hxpost
        · rw [hxe] at hxlt
          omega
        · have := hpost_ge x hxpost
          omega
  | none =>
    rw [assignChapter_of_none (htake.symm ▸ hlc), hdrop] at hc
    have hm0 := firstChapter_mem post c hc
    have hnopre : ∀ x ∈ pre, x.kind ≠ IKind.chapter := lastChapter_none pre hlc
    have hallgt : ∀ x ∈ pre ++ L :: post, x.kind = IKind.chapter →
        L.position < x.position := by
      intro x hxmem hxk
      rcases List.mem_append.mp hxmem with hxpre | hxLpost
      · exact absurd hxk (hnopre x hxpre)
      · rcases List.mem_cons.mp hxLpost with hxe | hxpost
        · exfalso
          rw [hxe, hles] at hxk
          exact IKind.noConfusion hxk
        · have hge := hpost_ge x hxpost
          have hne := hsep x hxmem L hLmem hxk hles
          omega
    refine ⟨List.mem_append.mpr (Or.inr (List.mem_cons_of_mem _ hm0.1)), hm0.2,
      Or.inr ⟨hallgt, ?_, ?_⟩⟩
    · exact hallgt c (List.mem_append.mpr (Or.inr (List.mem_cons_of_mem _ hm0.1))) hm0.2
    · intro x hxmem hxk
      rcases List.mem_append.mp hxmem with hxpre | hxLpost
      · exact absurd hxk (hnopre x hxpre)
      · rcases List.mem_cons.mp hxLpost with hxe | hxpost
        · exfalso
          rw [hxe, hles] at hxk
          exact IKind.noConfusion hxk
        · exact firstChapter_min post (List.pairwise_cons.mp hPW.2.1).2 c hc x hxpost hxk

/-- Witness for C2 at the synthetic document: lesson 1 at position 50 is
assigned chapter 1 at position 0, the nearest strictly-preceding chapter. -/
theorem chapter_map_nearest_witness :
    exCh1 ∈ exItems ∧ exCh1.kind = IKind.chapter ∧
    ((exCh1.position < 50
      ∧ ∀ x ∈ exItems, x.kind = IKind.chapter → x.position < 50 →
          x.position ≤ exCh1.position)
     ∨ ((∀ x ∈ exItems, x.kind = IKind.chapter → 50 < x.position)
        ∧ 50 < exCh1.position
        ∧ ∀ x ∈ exItems, x.kind = IKind.chapter → exCh1.position ≤ x.position)) := by
  have h := chapter_map_nearest.1 [exCh1]
    [exCh2, ⟨IKind.lesson, 250, 2, [], []⟩] ⟨IKind.lesson, 50, 1, [], []⟩
    (by decide) (by decide) (by decide) exCh1 (by decide)
  simpa [exItems] using h
/-! ## C5: semantic-boundary splitting -/

/-- Members of a match insertion. -/
lemma mem_insertByStart {y m : SMatch} :
    ∀ l, y ∈ insertByStart m l → y = m ∨ y ∈ l
  | [] => by simp [insertByStart]
  | x :: xs => by
    simp only [insertByStart]
    split_ifs with hlt
    · intro hy
      rcases List.mem_cons.mp hy with h | h
      · exact Or.inl h
      · exact Or.inr h
    · intro hy
      rcases List.mem_cons.mp hy with h | h
      · exact Or.inr (h ▸ List.mem_cons_self x xs)
      · rcases mem_insertByStart xs h with h2 | h2
        · exact Or.inl h2
        · exact Or.inr (List.mem_cons_of_mem x h2)

/-- Match insertion preserves sortedness by start. -/
lemma pairwise_insertByStart {m : SMatch} :
    ∀ l, l.Pairwise (fun a b : SMatch => a.1 ≤ b.1) →
      (insertByStart m l).Pairwise (fun a b => a.1 ≤ b.1)
  | [], _ => by simp [insertByStart]
  | x :: xs, h => by
    obtain ⟨hx, hxs⟩ := List.pairwise_cons.mp h
    simp only [insertByStart]
    split_ifs with hlt
    · refine List.pairwise_cons.mpr ⟨?_, h⟩
      intro y hy
      rcases List.mem_cons.mp hy with rfl | hy2
      · exact Nat.le_of_lt hlt
      · exact Nat.le_trans (Nat.le_of_lt hlt) (hx y hy2)
    · refine List.pairwise_cons.mpr ⟨?_, pairwise_insertByStart xs hxs⟩
      intro y hy
      rcases mem_insertByStart xs hy with rfl | hy2
      · exact Nat.le_of_not_lt hlt
      · exact hx y hy2

/-- The match sort is sorted by start position. -/
lemma sortByStart_pairwise (l : List SMatch) :
    (sortByStart l).Pairwise (fun a b => a.1 ≤ b.1) := by
  have haux : ∀ (l acc : List SMatch),
      acc.Pairwise (fun a b : SMatch => a.1 ≤ b.1) →
      (l.foldl (fun a m => insertByStart m a) acc).Pairwise (fun a b => a.1 ≤ b.1) := by
    intro l
    induction l with
    | nil => exact fun acc h => h
    | cons m l ih => exact fun acc h => ih _ (pairwise_insertByStart acc h)
  exact haux l [] List.Pairwise.nil

/-- Every element of the sorted match list is an input match. -/
lemma sortByStart_mem {x : SMatch} {l : List SMatch} (h : x ∈ sortByStart l) : x ∈ l := by
  have haux : ∀ (l acc : List SMatch),
      x ∈ l.foldl (fun a m => insertByStart m a) acc → x ∈ acc ∨ x ∈ l := by
    intro l
    induction l with
    | nil => exact fun acc h => Or.inl h
    | cons m l ih =>
      intro acc hmem
      rcases ih _ hmem with h2 | h2
      · rcases mem_insertByStart acc h2 with h3 | h3
        · exact Or.inr (h3 ▸ List.mem_cons_self m l)
        · exact Or.inl h3
      · exact Or.inr (List.mem_cons_of_mem m h2)
  rcases haux l [] h with h2 | h2
  · cases h2
  · exact h2

/-- The sorted match list has the input's length. -/
lemma sortByStart_length (l : List SMatch) : (sortByStart l).length = l.length := by
  have haux : ∀ (l acc : List SMatch),
      (l.foldl (fun a m => insertByStart m a) acc).length = acc.length + l.length := by
    intro l
    induction l with
    | nil => simp
    | cons m l ih =>
      intro acc
      have hlen : ∀ acc2 : List SMatch, (insertByStart m acc2).length = acc2.length + 1 := by
        intro acc2
        induction acc2 with
        | nil => rfl
        | cons x xs ih2 =>
          simp only [insertByStart]
          split_ifs
          · simp
          · simp [ih2]
      rw [List.foldl_cons, ih, hlen]
      simp only [List.length_cons]
      omega
  simpa using haux l []

/-- Stripping is a subsequence. -/
lemma strip_sublist (s : Str) : (strip s).Sublist s := by
  have h1 : (s.dropWhile isWs).Sublist s := List.dropWhile_sublist isWs
  have h2 : ((s.dropWhile isWs).reverse.dropWhile isWs).Sublist
      (s.dropWhile isWs).reverse := List.dropWhile_sublist isWs
  have h3 : (((s.dropWhile isWs).reverse.dropWhile isWs).reverse).Sublist
      ((s.dropWhile isWs).reverse.reverse) := by
    rw [List.reverse_sublist]
    exact h2
  rw [List.reverse_reverse] at h3
  exact h3.trans h1

/-- A tiling runs left to right. -/
lemma tiles_le : ∀ (rs : List (Nat × Nat)) (lo hi : Nat),
    tiles rs lo hi = true → lo ≤ hi
  | [], lo, hi, h => by
    simp only [tiles, decide_eq_true_eq] at h
    omega
  | (a, b) :: rs, lo, hi, h => by
    simp only [tiles, Bool.and_eq_true, decide_eq_true_eq] at h
    have := tiles_le rs b hi h.2
    omega

/-- Adjacent slices concatenate. -/
lemma slice_append (text : Str) {a b c : Nat} (hab : a ≤ b) (hbc : b ≤ c) :
    slice text a b ++ slice text b c = slice text a c := by
  simp only [slice]
  have h1 : List.drop (b - a) (text.drop a) = text.drop b := by
    rw [List.drop_drop]
    congr 1
    omega
  rw [← h1, ← List.take_add]
  congr 1
  omega

/-- The slices of a tiling of `[lo, hi)` concatenate to that region. -/
lemma tiles_join_slices (text : Str) :
    ∀ (rs : List (Nat × Nat)) (lo hi : Nat), tiles rs lo hi = true →
      List.flatten (rs.map fun r => slice text r.1 r.2) = slice text lo hi
  | [], lo, hi, ht => by
    simp only [tiles, decide_eq_true_eq] at ht
    subst ht
    simp [slice]
  | (a, b) :: rs, lo, hi, ht => by
    simp only [tiles, Bool.and_eq_true, decide_eq_true_eq] at ht
    obtain ⟨⟨hal, hab⟩, hrest⟩ := ht
    have hbhi : b ≤ hi := tiles_le rs b hi hrest
    simp only [List.map_cons, List.flatten_cons]
    rw [tiles_join_slices text rs b hi hrest, ← hal]
    exact slice_append text hab hbhi

/-- The emitted pieces of the boundary loop are, piece by piece, stripped
contents of the boundary ranges: their concatenation is a subsequence of
the concatenated range slices. -/
lemma sbLoop_join_sublist (text : Str) :
    ∀ (l : List SMatch) (prevEnd : Nat),
      (List.flatten ((sbLoop text prevEnd l).map Prod.fst)).Sublist
        (List.flatten ((sbRanges text.length prevEnd l).map fun r => slice text r.1 r.2))
  | [], _ => by simp [sbLoop, sbRanges]
  | (s, e, ty) :: rest, prevEnd => by
    have ih := sbLoop_join_sublist text rest
      (match rest with | [] => text.length | (s2, _, _) :: _ => s2)
    simp only [sbLoop, sbRanges, List.map_append, List.flatten_append,
      List.map_cons, List.flatten_cons, List.append_assoc]
    refine List.Sublist.append ?_ (List.Sublist.append ?_ ih)
    · split_ifs with h1 h2
      · simp only [List.map_cons, List.map_nil, List.flatten_cons, List.flatten_nil,
          List.append_nil]
        exact strip_sublist _
      · simp only [List.map_cons, List.map_nil, List.flatten_cons, List.flatten_nil,
          List.append_nil]
        exact List.nil_sublist _
      · simp only [List.map_nil, List.flatten_nil]
        exact List.nil_sublist _
    · split_ifs with h1
      · simp only [List.map_cons, List.map_nil, List.flatten_cons, List.flatten_nil,
          List.append_nil]
        exact strip_sublist _
      · simp only [List.map_nil, List.flatten_nil]
        exact List.nil_sublist _

/-- The boundary ranges tile from `prevEnd` to the end of the text. -/
lemma tiles_sbRanges (len : Nat) :
    ∀ (rest : List SMatch) (s e : Nat) (ty : SType) (prevEnd : Nat),
      ((s, e, ty) :: rest).Pairwise (fun a b => a.1 ≤ b.1) →
      (∀ m ∈ (s, e, ty) :: rest, m.1 ≤ len) →
      prevEnd ≤ s →
      tiles (sbRanges len prevEnd ((s, e, ty) :: rest)) prevEnd len = true
  | [], s, e, ty, prevEnd, _, hb, hps => by
    have hsl : s ≤ len := hb (s, e, ty) (by simp)
    by_cases h1 : prevEnd < s
    · simp [sbRanges, h1, tiles, Nat.le_of_lt h1, hsl]
    · have : prevEnd = s := by omega
      simp [sbRanges, h1, tiles, this, hsl]
  | (s2, e2, ty2) :: rest, s, e, ty, prevEnd, hs, hb, hps => by
    have hss2 : s ≤ s2 := (List.pairwise_cons.mp hs).1 (s2, e2, ty2) (by simp)
    have ih := tiles_sbRanges len rest s2 e2 ty2 s2 (List.pairwise_cons.mp hs).2
      (fun m hm => hb m (List.mem_cons_of_mem _ hm)) (Nat.le_refl s2)
    by_cases h1 : prevEnd < s
    · simp only [sbRanges, h1, if_true, List.singleton_append, tiles,
        Bool.and_eq_true, decide_eq_true_eq]
      exact ⟨⟨trivial, Nat.le_of_lt h1⟩, ⟨trivial, hss2⟩, ih⟩
    · have hpe : prevEnd = s := by omega
      simp only [sbRanges, h1, if_false, List.nil_append, tiles,
        Bool.and_eq_true, decide_eq_true_eq]
      exact ⟨⟨hpe.symm, hpe ▸ hss2⟩, ih⟩

/-- Counterexample to C5 as stated: a lesson whose pre-match text strips
to 8 characters.  The loop of lines 216-219 drops it, so concatenating
the emitted pieces does not reconstruct the lesson text. -/
theorem semantic_cover_cex :
    ([cexSemMatch] : List SMatch) ≠ []
    ∧ List.flatten ((splitBySemanticBoundaries [cexSemMatch] cexSemText).map Prod.fst)
        ≠ cexSemText := by
  exact ⟨by decide, by decide⟩

/-- C5 (amended): the match-delimited boundary ranges cover the whole
lesson span with no gaps and no overlaps, and every emitted piece is the
stripped content of its range — so the concatenation of the pieces is a
subsequence of the span; exact reconstruction can fail only by boundary
whitespace trimming, by the dropped pre-match fragment when its stripped
length is ≤ 10, and by whitespace-only sections. -/
theorem semantic_sections_structure (ms : List SMatch) (text : Str)
    (hne : ms ≠ [])
    (hbound : ∀ m ∈ ms, m.1 ≤ text.length) :
    tiles (sbRanges text.length 0 (sortByStart ms)) 0 text.length = true
    ∧ (List.flatten ((splitBySemanticBoundaries ms text).map Prod.fst)).Sublist text := by
  have hsorted := sortByStart_pairwise ms
  have hbound2 : ∀ m ∈ sortByStart ms, m.1 ≤ text.length := fun m hm =>
    hbound m (sortByStart_mem hm)
  have hsne : sortByStart ms ≠ [] := by
    intro hnil
    have := sortByStart_length ms
    rw [hnil] at this
    exact hne (List.length_eq_zero.mp this.symm)
  obtain ⟨⟨s, e, ty⟩, rest, hsplit⟩ : ∃ h t, sortByStart ms = h :: t := by
    cases hcase : sortByStart ms with
    | nil => exact absurd hcase hsne
    | cons h t => exact ⟨h, t, rfl⟩
  have htile : tiles (sbRanges text.length 0 (sortByStart ms)) 0 text.length = true := by
    rw [hsplit]
    exact tiles_sbRanges text.length rest s e ty 0 (hsplit ▸ hsorted)
      (fun m hm => hbound2 m (hsplit ▸ hm)) (Nat.zero_le s)
  refine ⟨htile, ?_⟩
  have hsplitBSB : splitBySemanticBoundaries ms text = sbLoop text 0 (sortByStart ms) := by
    simp only [splitBySemanticBoundaries]
    rw [if_neg hne]
  rw [hsplitBSB]
  have h1 := sbLoop_join_sublist text (sortByStart ms) 0
  have h2 : List.flatten ((sbRanges text.length 0 (sortByStart ms)).map
      fun r => slice text r.1 r.2) = slice text 0 text.length :=
    tiles_join_slices text _ 0 text.length htile
  have h3 : slice text 0 text.length = text := by
    simp [slice]
  rw [h2, h3] at h1
  exact h1

/-- Witness for C5 (amended) at a concrete input. -/
theorem semantic_sections_structure_witness :
    tiles (sbRanges semText.length 0 (sortByStart semMatches)) 0 semText.length = true
    ∧ (List.flatten ((splitBySemanticBoundaries semMatches semText).map Prod.fst)).Sublist
        semText :=
  semantic_sections_structure semMatches semText (by decide) (by decide)

/-! ## C8: basic-mode chunk size bound (spec-modelled splitter) -/

/-- The picked candidate is the new one or the stored one. -/
lemma pickBreak_some {w : Str} (acc : Option Nat) (i j : Nat)
    (h : pickBreak w acc i = some j) : j = i ∨ acc = some j := by
  cases acc with
  | none => exact Or.inl (Option.some.inj h).symm
  | some j0 =>
    simp only [pickBreak] at h
    split_ifs at h with hc
    · exact Or.inl (Option.some.inj h).symm
    · exact Or.inr (by rw [Option.some.inj h])

/-- The fold's pick comes from the accumulator or the candidate list. -/
lemma foldl_pickBreak_mem {w : Str} : ∀ (l : List Nat) (acc : Option Nat) (j : Nat),
    l.foldl (pickBreak w) acc = some j → acc = some j ∨ j ∈ l
  | [], _, j, h => Or.inl h
  | i :: l, acc, j, h => by
    rw [List.foldl_cons] at h
    rcases foldl_pickBreak_mem l _ j h with h2 | h2
    · rcases pickBreak_some acc i j h2 with h3 | h3
      · exact Or.inr (h3 ▸ List.mem_cons_self i l)
      · exact Or.inl h3
    · exact Or.inr (List.mem_cons_of_mem _ h2)

/-- The chosen break position never exceeds the window. -/
lemma chooseBreak_le (w : Str) (size : Nat) :
    chooseBreak w size ≤ min size w.length := by
  cases hres : (((List.range (min size w.length + 1)).filter
      fun i => decide (0 < i) && decide (0 < breakPrio w i)).foldl
      (pickBreak w) none) with
  | none =>
    have : chooseBreak w size = min size w.length := by
      simp [chooseBreak, hres]
    omega
  | some j =>
    have heq : chooseBreak w size = j := by
      simp [chooseBreak, hres]
    rcases foldl_pickBreak_mem _ none j hres with h2 | h2
    · cases h2
    · have := List.mem_range.mp (List.mem_of_mem_filter h2)
      omega

/-- Every core piece fits the size target. -/
lemma recSplitCoreAux_le (size : Nat) (hs : 1 ≤ size) :
    ∀ (fuel : Nat) (s : Str), s.length ≤ fuel →
      ∀ p ∈ recSplitCoreAux size fuel s, p.length ≤ size
  | 0, s, hf, p, hp => by
    simp only [recSplitCoreAux, List.mem_singleton] at hp
    rw [hp]
    have : s.length = 0 := by omega
    omega
  | fuel + 1, s, hf, p, hp => by
    simp only [recSplitCoreAux] at hp
    split_ifs at hp with hcond
    · simp only [List.mem_singleton] at hp
      rw [hp]
      rcases hcond with h | h
      · exact h
      · omega
    · push_neg at hcond
      rcases List.mem_cons.mp hp with hpe | hptail
      · rw [hpe]
        have hb := chooseBreak_le s size
        have : max (chooseBreak s size) 1 ≤ size := by
          have : chooseBreak s size ≤ size := le_trans hb (Nat.min_le_left _ _)
          omega
        calc (s.take (max (chooseBreak s size) 1)).length
            ≤ max (chooseBreak s size) 1 := by
              rw [List.length_take]; omega
          _ ≤ size := this
      · refine recSplitCoreAux_le size hs fuel _ ?_ p hptail
        have : 1 ≤ max (chooseBreak s size) 1 := Nat.le_max_right _ _
        rw [List.length_drop]
        omega

/-- The overlap attachment adds at most `overlap` atoms to each piece. -/
lemma attachOverlap_le {size overlap : Nat} :
    ∀ pieces : List Str, (∀ p ∈ pieces, p.length ≤ size) →
      ∀ q ∈ attachOverlap overlap pieces, q.length ≤ size + overlap
  | [], _, q, hq => by simp [attachOverlap] at hq
  | p :: rest, h, q, hq => by
    simp only [attachOverlap] at hq
    rcases List.mem_cons.mp hq with hqe | hqm
    · rw [hqe]
      have := h p (List.mem_cons_self _ _)
      omega
    · obtain ⟨pr, hpr, hpre⟩ := List.mem_map.mp hqm
      obtain ⟨h1, h2⟩ := List.of_mem_zip hpr
      have hb1 : pr.1.length ≤ size := h pr.1 (List.mem_cons_of_mem _ h1)
      rw [← hpre]
      rw [List.length_append, List.length_drop]
      omega

/-- C8: For every chunk produced in basic mode, the token count is at
most the configured chunk size plus the configured overlap.  (The
splitter itself is the third-party `RecursiveCharacterTextSplitter`,
modelled from spec §4.6; the token count of a chunk is its length in the
configured unit.) -/
theorem basicChunk_token_bound (size overlap : Nat) (text : Str) (hs : 1 ≤ size) :
    ∀ c ∈ basicChunkModel size overlap text, c.2 ≤ size + overlap := by
  intro c hc
  simp only [basicChunkModel, recSplitCore] at hc
  obtain ⟨p, hp, hpe⟩ := List.mem_map.mp hc
  have hcore := recSplitCoreAux_le size hs text.length text (Nat.le_refl _)
  have hb := attachOverlap_le (recSplitCoreAux size text.length text) hcore p hp
  rw [← hpe]
  exact hb

/-- Witness for C8 at a concrete input: the second chunk of the 19-atom
text under size 5 and overlap 2 is within the bound. -/
theorem basicChunk_token_bound_witness :
    (("c def. ".toList, 7) : Str × Nat).2 ≤ 5 + 2 :=
  basicChunk_token_bound 5 2 chunkText (by decide) ("c def. ".toList, 7) (by decide)

/-! ## C9: context windows -/

/-- Indexing into the enriched list is updating the indexed element. -/
lemma ctxGo_get (orig : List CChunk) (n : Nat) :
    ∀ (l : List CChunk) (j k : Nat),
      (ctxGo orig n j l)[k]? = (l[k]?).map (fun c => ctxUpdate orig n (j + k) c)
  | [], j, k => by simp [ctxGo]
  | c :: rest, j, 0 => by simp [ctxGo]
  | c :: rest, j, k + 1 => by
    simp only [ctxGo, List.getElem?_cons_succ]
    rw [ctxGo_get orig n rest (j + 1) k]
    have harith : j + 1 + k = j + (k + 1) := by omega
    rw [harith]

/-- Counterexample to C9 as stated: with four chunks, the relative
position stored for chunk index 1 is `round(1/3, 2) = 0.33` (33
hundredths), not the claimed exact `1/3`: a stored value `h` hundredths
equals `1/3` only if `3·h = 100`, and `3·33 = 99`. -/
theorem ctx_relpos_cex :
    ((addContextWindows cs4)[1]?).map (fun c => 3 * c.relPosH) ≠ some 100 := by
  decide

/-- C9 (amended): the enricher attaches to every chunk except the first
the last 100 characters of the previous chunk's content, to every chunk
except the last the first 100 characters of the next chunk's content,
and sets the position block to the index, the total count, and the
relative position `index / (count - 1)` (0 when there is a single chunk)
*rounded half-to-even to two decimal places*. -/
theorem addContextWindows_fields (cs : List CChunk) (i : Nat) (hi : i < cs.length)
    (hfresh : ∀ c ∈ cs, c.prevPreview = none ∧ c.nextPreview = none) :
    ((addContextWindows cs)[i]?).map
        (fun c => (c.prevPreview, c.nextPreview, c.posIndex, c.posTotal, c.relPosH))
      = some
        ((if i = 0 then none else (cs[i-1]?).map fun p => last100 p.content),
         (if i + 1 < cs.length then (cs[i+1]?).map fun p => first100 p.content else none),
         i, cs.length,
         rheDiv (100 * i) (max (cs.length - 1) 1)) := by
  have hg := ctxGo_get cs cs.length cs 0 i
  simp only [addContextWindows]
  rw [hg]
  have hc : cs[i]? = some cs[i] := List.getElem?_eq_getElem hi
  rw [hc]
  obtain ⟨hp, hn⟩ := hfresh cs[i] (cs.getElem_mem hi)
  simp only [Option.map_some', Option.some.injEq, ctxUpdate, Nat.zero_add,
    Prod.mk.injEq]
  refine ⟨?_, ?_, trivial⟩
  · by_cases h0 : i = 0
    · rw [if_neg (by omega), if_pos h0, hp]
    · rw [if_pos (by omega), if_neg h0]
  · by_cases h1 : i + 1 < cs.length
    · rw [if_pos (by omega), if_pos h1]
    · rw [if_neg (by omega), if_neg h1, hn]

/-- Witness for C9 (amended) at four concrete chunks, index 1. -/
theorem addContextWindows_fields_witness :
    ((addContextWindows cs4)[1]?).map
        (fun c => (c.prevPreview, c.nextPreview, c.posIndex, c.posTotal, c.relPosH))
      = some
        ((if 1 = 0 then none else (cs4[1-1]?).map fun p => last100 p.content),
         (if 1 + 1 < cs4.length then (cs4[1+1]?).map fun p => first100 p.content else none),
         1, cs4.length,
         rheDiv (100 * 1) (max (cs4.length - 1) 1)) :=
  addContextWindows_fields cs4 1 (by decide) (by decide)

end SgkRag
